import Mathlib

/-!
Verification of the pyDeepInsight `ImageTransformer` / `MRepImageTransformer`
coordinate pipeline (`pyDeepInsight/image_transformer.py`), via a shallow
embedding over exact rationals.

Modelling conventions:
* numpy float values are modelled as `ℚ`; an IEEE NaN is modelled as `none`
  in `Option ℚ` (abbreviated `NQ`).  The only NaN the pipeline can create is
  the `0/0` produced by `scale_coordinates` on a zero-range axis (the
  numerator `x - min` is identically zero exactly when `max - min = 0`).
* numpy operations that raise (`IndexError` on an out-of-range write,
  `ValueError` on reducing an empty array, the solver rejecting invalid
  entries) are modelled as `none` / `Except.error`.
* `np.empty` slots that are never written are modelled as `none`
  (uninitialized memory); any read of such a slot is undefined behaviour and
  is modelled as a failure.
* external collaborators that the source only calls (scipy's
  `linear_sum_assignment`, sklearn's `BisectingKMeans`, the repository's
  `utils.asymmetric_greedy_search`, numpy's `np.unique`) are modelled from
  the spec's stated contracts; each such definition carries a
  `Modelled from the spec:` doc comment.
-/

deriving instance DecidableEq for Except

namespace PyDeepInsight

/-- A 2-D feature position. -/
abbrev Point := ℚ × ℚ

/-- A rational-or-NaN value: `none` models an IEEE NaN. -/
abbrev NQ := Option ℚ

/-- Elementwise traversal with possible failure (embedding of numpy
elementwise loops whose body can be undefined). -/
def mapOpt (f : α → Option β) : List α → Option (List β)
  | [] => some []
  | a :: l => (f a).bind fun b => (mapOpt f l).map fun bs => b :: bs

/-- Elementwise traversal in the error monad (embedding of loops that can
raise a Python exception). -/
def mapExc (f : α → Except String β) : List α → Except String (List β)
  | [] => .ok []
  | a :: l => (f a).bind fun b => (mapExc f l).map fun bs => b :: bs

/-- One axis of the min-max rescale in `scale_coordinates`:
`std = (x - min)/(max - min); scaled = std * dim`.  When `max = min` the
numerator is also zero (every point shares the axis value), so numpy
computes `0/0 = NaN`: modelled as `none`. -/
def scaleVal (x lo hi : ℚ) (dim : ℕ) : NQ :=
  if hi = lo then none else some ((x - lo) / (hi - lo) * (dim : ℚ))

/-- `ImageTransformer.scale_coordinates(coords, dim_max)`: per-axis min-max
rescale of a point list into `[0, dim]` units.  `coords.min(axis=0)` on an
empty array raises (`ValueError`), modelled by returning `none`. -/
def scale_coordinates (coords : List Point) (dim_max : ℕ × ℕ) : Option (List (NQ × NQ)) :=
  match coords with
  | [] => none
  | c :: cs =>
    let lo1 := (cs.map Prod.fst).foldl min c.1
    let hi1 := (cs.map Prod.fst).foldl max c.1
    let lo2 := (cs.map Prod.snd).foldl min c.2
    let hi2 := (cs.map Prod.snd).foldl max c.2
    some ((c :: cs).map fun p =>
      (scaleVal p.1 lo1 hi1 dim_max.1, scaleVal p.2 lo2 hi2 dim_max.2))

/-- The clamp in `coordinate_binning`: values exactly equal to the grid
dimension are moved into the last bin (`px_binned[px_binned == d] = d - 1`). -/
def clampBin (z : ℤ) (d : ℕ) : ℤ :=
  if z = (d : ℤ) then (d : ℤ) - 1 else z

/-- `ImageTransformer.coordinate_binning(position, px_size)`: scale, floor to
integers, clamp the maximal value into the last bin.  `np.floor` of a NaN
followed by `astype(int)` is undefined, modelled as `none`. -/
def coordinate_binning (position : List Point) (px_size : ℕ × ℕ) : Option (List (ℤ × ℤ)) :=
  (scale_coordinates position px_size).bind fun scaled =>
    mapOpt (fun sc =>
      sc.1.bind fun a =>
      sc.2.map fun b =>
        (clampBin (Int.floor a) px_size.1, clampBin (Int.floor b) px_size.2)) scaled

/-- The loop order of `calculate_pixel_centroids`: `(i, j)` for
`i in range(px_size[0])`, `j in range(px_size[1])`. -/
def centroid_pairs (px_size : ℕ × ℕ) : List (ℕ × ℕ) :=
  (List.range px_size.1).flatMap fun i => (List.range px_size.2).map fun j => (i, j)

/-- A single numpy array write `arr[k] = v`; writing past the end raises
`IndexError`, modelled as `none`.  Unwritten slots stay `none`. -/
def setSlot (arr : List (Option Point)) (k : ℕ) (v : Point) : Option (List (Option Point)) :=
  if k < arr.length then some (arr.set k (some v)) else none

/-- The write loop of `calculate_pixel_centroids`:
`px_map[i * px_size[0] + j] = [i, j]`.  Note the stride is `px_size[0]`
(the height), regardless of the width. -/
def foldSet (H : ℕ) : List (ℕ × ℕ) → List (Option Point) → Option (List (Option Point))
  | [], arr => some arr
  | ij :: ws, arr =>
    (setSlot arr (ij.1 * H + ij.2) ((ij.1 : ℚ), (ij.2 : ℚ))).bind (foldSet H ws)

/-- `ImageTransformer.calculate_pixel_centroids(px_size)`: allocate
`np.empty((H*W, 2))`, write `[i, j]` at index `i*H + j`, then add `0.5`
to every entry.  Slots never written keep their uninitialized value
(`none`); an out-of-range write makes the whole call fail. -/
def calculate_pixel_centroids (px_size : ℕ × ℕ) : Option (List (Option Point)) :=
  (foldSet px_size.1 (centroid_pairs px_size)
      (List.replicate (px_size.1 * px_size.2) none)).map fun arr =>
    arr.map (Option.map fun p => (p.1 + 1/2, p.2 + 1/2))

/-- The entry of the centroid array at linear index `k` (read helper). -/
def centroidAt (px_size : ℕ × ℕ) (k : ℕ) : Option (Option Point) :=
  (calculate_pixel_centroids px_size).bind fun arr => arr.get? k

/-- Squared Euclidean distance.  The source computes the Euclidean distance
with `cdist(..., metric='euclidean')` and then squares it (`dist**2`)
before handing it to the solvers; we embed the squared form directly, which
keeps every cost rational. -/
def sqDist (p q : Point) : ℚ :=
  (p.1 - q.1) ^ 2 + (p.2 - q.2) ^ 2

/-- The squared-distance cost matrix between scaled positions and pixel
centroids.  A NaN position or an uninitialized centroid slot makes the cost
matrix invalid (scipy's solver rejects such input), modelled as `none`. -/
def cdistSq (xs : List (NQ × NQ)) (cs : List (Option Point)) : Option (List (List ℚ)) :=
  mapOpt (fun x =>
    x.1.bind fun a =>
    x.2.bind fun b =>
      mapOpt (fun oc => oc.map fun c => sqDist (a, b) c) cs) xs

/-- Modelled from the spec: the external clustering capability
(sklearn `BisectingKMeans` in `clustered_cdist`) — "partition N points into
k labeled groups with centroids" and return the centroid-to-pixel distance
matrix plus per-point cluster labels.  Kept abstract as a parameter; none of
the claims depends on its behaviour. -/
abbrev ClusterFn := List (NQ × NQ) → List (Option Point) → ℕ → Option (List (List ℚ) × List ℕ)

/-- A bipartite-assignment solver: cost matrix in, one column index per row
out. -/
abbrev SolverFn := List (List ℚ) → List ℕ

/-- `ImageTransformer.assignment_preprocessing(position, px_size,
max_assignments)`: scale the positions, build the pixel centroids, and
either cluster (when there are more points than assignment slots) or take
the direct point-to-centroid distance matrix with identity labels. -/
def assignment_preprocessing (cl : ClusterFn) (position : List Point) (px_size : ℕ × ℕ)
    (max_assignments : ℕ) : Option (List (List ℚ) × List ℕ) :=
  (scale_coordinates position px_size).bind fun scaled =>
  (calculate_pixel_centroids px_size).bind fun px_centers =>
  if scaled.length > max_assignments then
    cl scaled px_centers max_assignments
  else
    (cdistSq scaled px_centers).map fun dist => (dist, List.range scaled.length)

/-- `ImageTransformer.assignment_postprocessing(position, px_size, solution,
labels)`: feature `i` is mapped to cluster `j = labels[i]`, which the solver
sent to pixel `k = solution[j]`; the pixel index is decoded as
`x = k % px_size[0]`, `y = k // px_size[0]` and the stored pair is `[y, x]`.
Note the decode uses `px_size[0]` (the height) for both row and column. -/
def assignment_postprocessing (position : List Point) (px_size : ℕ × ℕ)
    (solution : List ℕ) (labels : List ℕ) : Option (List (ℕ × ℕ)) :=
  mapOpt (fun i =>
    (labels.get? i).bind fun j =>
    (solution.get? j).map fun k => (k / px_size.1, k % px_size.1))
    (List.range position.length)

/-- All ways to insert an element into a list (auxiliary for the structural
permutation enumeration below). -/
def insertionsOf (a : α) : List α → List (List α)
  | [] => [[a]]
  | b :: l => (a :: b :: l) :: (insertionsOf a l).map (b :: ·)

/-- All permutations of a list, by structural recursion. -/
def permsOf : List α → List (List α)
  | [] => [[]]
  | a :: l => (permsOf l).flatMap (insertionsOf a)

/-- Total cost of an assignment (row `i` to column `asgn[i]`). -/
def totalCost (cost : List (List ℚ)) (asgn : List ℕ) : ℚ :=
  ((List.range asgn.length).map fun i => (cost.getD i []).getD (asgn.getD i 0) 0).sum

/-- First minimal element of a candidate list under a cost function. -/
def pickMin (f : List ℕ → ℚ) : List (List ℕ) → List ℕ
  | [] => []
  | x :: xs => xs.foldl (fun best c => if f c < f best then c else best) x

/-- Modelled from the spec: the external exact bipartite solver
(`scipy.optimize.linear_sum_assignment`) — "solve minimum-cost bipartite
perfect matching given a cost matrix, returning column index per row".
Reference implementation by brute force: enumerate every injective choice of
`n` of the `m` columns (prefixes of column permutations) and keep the first
one of minimal total cost. -/
def linear_sum_assignment (cost : List (List ℚ)) : List ℕ :=
  pickMin (totalCost cost)
    ((permsOf (List.range (cost.headD []).length)).map fun p => p.take cost.length)

/-- `ImageTransformer.coordinate_optimal_assignment(position, px_size)`:
capacity is the full pixel count, then exact assignment of
features/clusters to pixels, then decode. -/
def coordinate_optimal_assignment (cl : ClusterFn) (position : List Point)
    (px_size : ℕ × ℕ) : Option (List (ℕ × ℕ)) :=
  (assignment_preprocessing cl position px_size (px_size.1 * px_size.2)).bind fun dl =>
    assignment_postprocessing position px_size (linear_sum_assignment dl.1) dl.2

/-- `ImageTransformer.coordinate_heuristic_assignment(position, px_size)`:
capacity is the pixel count minus one, and the matching step is
`utils.asymmetric_greedy_search` (repository code not under `src/`,
and nondeterministic through its shuffled tie-breaking).  Modelled from the
spec: the greedy solver is abstracted as a `SolverFn` parameter. -/
def coordinate_heuristic_assignment (cl : ClusterFn) (ags : SolverFn)
    (position : List Point) (px_size : ℕ × ℕ) : Option (List (ℕ × ℕ)) :=
  (assignment_preprocessing cl position px_size (px_size.1 * px_size.2 - 1)).bind fun dl =>
    assignment_postprocessing position px_size (ags dl.1) dl.2

/-- The features mapped to pixel `rc` (the `np.where(idx == i)` group of
`transform` for the unique coordinate `rc`). -/
def featuresAt (coords : List (ℕ × ℕ)) (rc : ℕ × ℕ) : List ℕ :=
  (List.range coords.length).filter fun i => coords.getD i (0, 0) = rc

/-- One pixel of one sample in `transform`: the mean over the features
mapped there (`X[:, np.where(idx == i)[0]].mean(axis=1)`), or the fill value
when no feature is mapped.  A feature index past the end of the sample row
raises numpy's `IndexError`. -/
def pixel_value (coords : List (ℕ × ℕ)) (xs : List ℚ) (rc : ℕ × ℕ) (empty_value : ℚ) :
    Except String ℚ :=
  if featuresAt coords rc = [] then .ok empty_value
  else
    match mapOpt (fun i => xs.get? i) (featuresAt coords rc) with
    | none => .error "IndexError: index out of bounds"
    | some vals => .ok (vals.sum / (vals.length : ℚ))

/-- The pure value of one pixel when every needed feature index is in range
(used to state what `pixel_value` computes on well-formed input). -/
def pvPure (coords : List (ℕ × ℕ)) (xs : List ℚ) (rc : ℕ × ℕ) (empty_value : ℚ) : ℚ :=
  match featuresAt coords rc with
  | [] => empty_value
  | l => ((l.map fun i => xs.getD i 0).sum) / ((l.length : ℚ))

/-- The scalar image stack of `transform`: one `(H, W)` matrix per sample. -/
def transform_scalar (coords : List (ℕ × ℕ)) (px_size : ℕ × ℕ) (X : List (List ℚ))
    (empty_value : ℚ) : Except String (List (List (List ℚ))) :=
  mapExc (fun xs =>
    mapExc (fun r =>
      mapExc (fun c => pixel_value coords xs (r, c) empty_value)
        (List.range px_size.2))
      (List.range px_size.1)) X

/-- The three output encodings of `transform`. -/
inductive ImgOut where
  | scalar (m : List (List (List ℚ)))
  | rgb (m : List (List (List (List ℚ))))
  | pytorch (m : List (List (List (List ℚ))))
deriving DecidableEq

/-- `ImageTransformer._mat_to_rgb`: repeat each value across a trailing
channel axis of size 3. -/
def mat_to_rgb (m : List (List (List ℚ))) : List (List (List (List ℚ))) :=
  m.map fun img => img.map fun row => row.map fun v => [v, v, v]

/-- `ImageTransformer._mat_to_pytorch`: `(N, H, W) → (N, 3, H, W)`. -/
def mat_to_pytorch (m : List (List (List ℚ))) : List (List (List (List ℚ))) :=
  m.map fun img => [img, img, img]

/-- `ImageTransformer.transform(X, img_format, empty_value)`: build the
image matrix, then dispatch on the encoding name; an unknown name raises
`ValueError(f"'{img_format}' not accepted for img_format")`. -/
def transform (coords : List (ℕ × ℕ)) (px_size : ℕ × ℕ) (X : List (List ℚ))
    (img_format : String) (empty_value : ℚ) : Except String ImgOut :=
  (transform_scalar coords px_size X empty_value).bind fun m =>
    if img_format = "rgb" then .ok (.rgb (mat_to_rgb m))
    else if img_format = "scalar" then .ok (.scalar m)
    else if img_format = "pytorch" then .ok (.pytorch (mat_to_pytorch m))
    else .error ("'" ++ img_format ++ "' not accepted for img_format")

/-- `ImageTransformer.inverse_transform(img)`, batched channel-less branch
(`img.ndim == 3 and img.shape[-2:] == self._pixels`): gather
`img[:, coords[:, 0], coords[:, 1]]`; a shape that does not match the stored
grid raises with a message stating the expected dimensions. -/
def inverse_transform_batch (coords : List (ℕ × ℕ)) (px_size : ℕ × ℕ)
    (imgs : List (List (List ℚ))) : Except String (List (List ℚ)) :=
  if imgs.all fun im =>
      im.length == px_size.1 && im.all fun row => row.length == px_size.2 then
    .ok (imgs.map fun im => coords.map fun rc => (im.getD rc.1 []).getD rc.2 0)
  else
    .error ("Expected dimensions of (B, " ++ toString px_size.1 ++ ", "
      ++ toString px_size.2 ++ ", C) where B and C are optional")

/-- The round trip `inverse_transform(transform(X, img_format='scalar'))`. -/
def transform_then_inverse (coords : List (ℕ × ℕ)) (px_size : ℕ × ℕ)
    (X : List (List ℚ)) : Except String (List (List ℚ)) :=
  (transform coords px_size X "scalar" 0).bind fun out =>
    match out with
    | .scalar m => inverse_transform_batch coords px_size m
    | _ => .error "unexpected img_format"

/-- Modelled from the spec: numpy's `np.unique` (external library call in
`prediction_reduction`) — "the sorted unique elements, ascending". -/
def np_unique (l : List ℕ) : List ℕ :=
  (l.insertionSort (· ≤ ·)).dedup

/-- The scores carrying sample index `k` (`y_hat[index == k]`). -/
def selectBy (y : List ℚ) (index : List ℕ) (k : ℕ) : List ℚ :=
  ((y.zip index).filter fun vi => vi.2 == k).map Prod.fst

/-- Mean of a score group (`np.mean`). -/
def np_mean (l : List ℚ) : ℚ :=
  l.sum / (l.length : ℚ)

/-- `MRepImageTransformer.prediction_reduction(y_hat, index, reduction)`:
aggregate per-representation scores back to one score per sample, grouped by
the sorted unique sample indices; an unknown reduction mode raises
`ValueError(f"reduction method '{reduction}' not valid")`. -/
def prediction_reduction (y_hat : List ℚ) (index : List ℕ) (reduction : String) :
    Except String (List ℚ) :=
  let index_set := np_unique index
  if reduction = "mean" then
    .ok (index_set.map fun k => np_mean (selectBy y_hat index k))
  else if reduction = "sum" then
    .ok (index_set.map fun k => (selectBy y_hat index k).sum)
  else
    .error ("reduction method '" ++ reduction ++ "' not valid")

/-- `ImageTransformer.DISCRETIZATION_OPTIONS`. -/
def DISCRETIZATION_OPTIONS : List (String × String) :=
  [("bin", "coordinate_binning"),
   ("assignment", "coordinate_optimal_assignment"),
   ("lsa", "coordinate_optimal_assignment"),
   ("ags", "coordinate_heuristic_assignment")]

/-- `ImageTransformer._parse_discretization(method)`: a plain dictionary
lookup; an unknown key raises `KeyError(method)`, whose message names the
offending key. -/
def parse_discretization (method : String) : Except String String :=
  match DISCRETIZATION_OPTIONS.lookup method with
  | some name => .ok name
  | none => .error ("KeyError: '" ++ method ++ "'")

/-- The `pixels` constructor argument: a single int (square grid) or an
`(height, width)` pair. -/
inductive PixelsParam where
  | int (n : ℕ)
  | pair (hw : ℕ × ℕ)

/-- `ImageTransformer._parse_pixels` / the expansion in the `pixels` setter:
a single integer `n` becomes the square grid `(n, n)`. -/
def parse_pixels : PixelsParam → ℕ × ℕ
  | .int n => (n, n)
  | .pair hw => hw

/-- A discretization method as stored in `self._dm`. -/
abbrev DiscretizationFn := List Point → ℕ × ℕ → Option (List (ℤ × ℤ))

/-- Cast an assignment mapping to the common signed coordinate type. -/
def toZ (l : List (ℕ × ℕ)) : List (ℤ × ℤ) :=
  l.map fun rc => ((rc.1 : ℤ), (rc.2 : ℤ))

/-- The `'bin'` discretization entry. -/
def dm_bin : DiscretizationFn := coordinate_binning

/-- The `'lsa'` / `'assignment'` discretization entry. -/
def dm_lsa (cl : ClusterFn) : DiscretizationFn := fun pos px =>
  (coordinate_optimal_assignment cl pos px).map toZ

/-- The `'ags'` discretization entry. -/
def dm_ags (cl : ClusterFn) (ags : SolverFn) : DiscretizationFn := fun pos px =>
  (coordinate_heuristic_assignment cl ags pos px).map toZ

/-- The mutable state of an `ImageTransformer`: the projector-call counter
(to observe `fit_transform` invocations), the cached rotated positions
`_xrot`, the grid `_pixels` and the mapping `_coords`. -/
structure ITState where
  fe_calls : ℕ
  xrot : List Point
  pixels : ℕ × ℕ
  coords : List (ℤ × ℤ)
deriving DecidableEq

/-- `ImageTransformer.__init__`: `_xrot = np.empty(0)`, `_coords =
np.empty(0)`, pixels parsed; the projector has not been called. -/
def init_state (p : PixelsParam) : ITState :=
  { fe_calls := 0, xrot := [], pixels := parse_pixels p, coords := [] }

/-- The `pixels` property setter: expand an integer to a square grid, store
the new grid, and (since `_coords` is always present after `__init__`)
unconditionally recompute the mapping from the cached `_xrot` via
`_calculate_coords`.  A Python exception inside the recomputation is
modelled as `Except.error`. -/
def set_pixels (dm : DiscretizationFn) (st : ITState) (p : PixelsParam) :
    Except String ITState :=
  match dm st.xrot (parse_pixels p) with
  | some c => .ok { st with pixels := parse_pixels p, coords := c }
  | none => .error "ValueError"

/-- `ImageTransformer.fit(X)`: run the projector (`fit_transform`, counted),
orient the projection (convex hull + minimum bounding rectangle + rotation,
abstracted as `orient`: its trigonometry is not representable over `ℚ` and
no claim depends on it), cache `_xrot`, and compute the mapping. -/
def fit (fe : List (List ℚ) → List Point) (orient : List Point → List Point)
    (dm : DiscretizationFn) (st : ITState) (X : List (List ℚ)) : Except String ITState :=
  match dm (orient (fe X)) st.pixels with
  | some c => .ok { fe_calls := st.fe_calls + 1, xrot := orient (fe X),
                    pixels := st.pixels, coords := c }
  | none => .error "ValueError"

/-! ## Helper lemmas -/

attribute [local semireducible] Rat.add Rat.sub Rat.mul Rat.inv

theorem mapOpt_length {f : α → Option β} :
    ∀ {l : List α} {ys : List β}, mapOpt f l = some ys → ys.length = l.length := by
  intro l
  induction l with
  | nil => intro ys h; simp [mapOpt] at h; simp [← h]
  | cons a l ih =>
    intro ys h
    simp only [mapOpt, Option.bind_eq_some, Option.map_eq_some'] at h
    obtain ⟨b, _, bs, hbs, rfl⟩ := h
    simp [ih hbs]

theorem mapOpt_get? {f : α → Option β} :
    ∀ {l : List α} {ys : List β}, mapOpt f l = some ys →
      ∀ i, ys.get? i = (l.get? i).bind f := by
  intro l
  induction l with
  | nil =>
    intro ys h i
    simp only [mapOpt, Option.some.injEq] at h
    subst h
    simp
  | cons a l ih =>
    intro ys h i
    simp only [mapOpt, Option.bind_eq_some, Option.map_eq_some'] at h
    obtain ⟨b, hb, bs, hbs, rfl⟩ := h
    cases i with
    | zero => simp [hb]
    | succ i => simpa using ih hbs i

theorem mapOpt_mem {f : α → Option β} :
    ∀ {l : List α} {ys : List β}, mapOpt f l = some ys →
      ∀ y ∈ ys, ∃ x ∈ l, f x = some y := by
  intro l
  induction l with
  | nil => intro ys h y hy; simp [mapOpt] at h; subst h; simp at hy
  | cons a l ih =>
    intro ys h y hy
    simp only [mapOpt, Option.bind_eq_some, Option.map_eq_some'] at h
    obtain ⟨b, hb, bs, hbs, rfl⟩ := h
    rcases List.mem_cons.mp hy with rfl | hy'
    · exact ⟨a, List.mem_cons_self .., hb⟩
    · obtain ⟨x, hx, hfx⟩ := ih hbs y hy'
      exact ⟨x, List.mem_cons_of_mem _ hx, hfx⟩

theorem mapOpt_eq_some_map {f : α → Option β} {g : α → β} :
    ∀ {l : List α}, (∀ a ∈ l, f a = some (g a)) → mapOpt f l = some (l.map g) := by
  intro l
  induction l with
  | nil => intro _; rfl
  | cons a l ih =>
    intro h
    simp only [mapOpt, h a (List.mem_cons_self ..),
      ih fun x hx => h x (List.mem_cons_of_mem _ hx), Option.some_bind, Option.map_some',
      List.map_cons]

theorem mapExc_eq_ok_map {f : α → Except String β} {g : α → β} :
    ∀ {l : List α}, (∀ a ∈ l, f a = .ok (g a)) → mapExc f l = .ok (l.map g) := by
  intro l
  induction l with
  | nil => intro _; rfl
  | cons a l ih =>
    intro h
    simp only [mapExc, h a (List.mem_cons_self ..),
      ih fun x hx => h x (List.mem_cons_of_mem _ hx), List.map_cons]
    rfl

theorem mapExc_congr {f g : α → Except String β} :
    ∀ {l : List α}, (∀ a ∈ l, f a = g a) → mapExc f l = mapExc g l := by
  intro l
  induction l with
  | nil => intro _; rfl
  | cons a l ih =>
    intro h
    simp only [mapExc, h a (List.mem_cons_self ..),
      ih fun x hx => h x (List.mem_cons_of_mem _ hx)]

theorem mapExc_map_comp {f : β → Except String γ} {t : α → β} :
    ∀ {l : List α}, mapExc f (l.map t) = mapExc (fun a => f (t a)) l := by
  intro l
  induction l with
  | nil => rfl
  | cons a l ih => simp only [List.map_cons, mapExc, ih]

theorem foldl_min_le_init : ∀ (l : List ℚ) (a : ℚ), l.foldl min a ≤ a := by
  intro l
  induction l with
  | nil => intro a; simp
  | cons x l ih =>
    intro a
    calc (x :: l).foldl min a = l.foldl min (min a x) := rfl
    _ ≤ min a x := ih _
    _ ≤ a := min_le_left _ _

theorem foldl_min_le_mem : ∀ {l : List ℚ} {x : ℚ} (a : ℚ), x ∈ l → l.foldl min a ≤ x := by
  intro l
  induction l with
  | nil => intro x a h; simp at h
  | cons y l ih =>
    intro x a h
    rcases List.mem_cons.mp h with rfl | h'
    · calc (x :: l).foldl min a = l.foldl min (min a x) := rfl
      _ ≤ min a x := foldl_min_le_init _ _
      _ ≤ x := min_le_right _ _
    · exact ih _ h'

theorem le_foldl_max_init : ∀ (l : List ℚ) (a : ℚ), a ≤ l.foldl max a := by
  intro l
  induction l with
  | nil => intro a; simp
  | cons x l ih =>
    intro a
    calc a ≤ max a x := le_max_left _ _
    _ ≤ l.foldl max (max a x) := ih _
    _ = (x :: l).foldl max a := rfl

theorem le_foldl_max_mem : ∀ {l : List ℚ} {x : ℚ} (a : ℚ), x ∈ l → x ≤ l.foldl max a := by
  intro l
  induction l with
  | nil => intro x a h; simp at h
  | cons y l ih =>
    intro x a h
    rcases List.mem_cons.mp h with rfl | h'
    · calc x ≤ max a x := le_max_right _ _
      _ ≤ l.foldl max (max a x) := le_foldl_max_init _ _
      _ = (x :: l).foldl max a := rfl
    · exact ih _ h'

theorem scaleVal_bound {x lo hi : ℚ} {d : ℕ} {a : ℚ} (hlo : lo ≤ x) (hhi : x ≤ hi)
    (h : scaleVal x lo hi d = some a) : 0 ≤ a ∧ a ≤ (d : ℚ) := by
  unfold scaleVal at h
  split at h
  · cases h
  · next hne =>
    obtain rfl : (x - lo) / (hi - lo) * (d : ℚ) = a := by
      simpa using h
    have hlt : lo < hi := lt_of_le_of_ne (hlo.trans hhi) (Ne.symm hne)
    have hpos : (0 : ℚ) < hi - lo := sub_pos.mpr hlt
    have hstd0 : 0 ≤ (x - lo) / (hi - lo) := div_nonneg (sub_nonneg.mpr hlo) hpos.le
    have hstd1 : (x - lo) / (hi - lo) ≤ 1 :=
      (div_le_one hpos).mpr (sub_le_sub_right hhi lo)
    constructor
    · exact mul_nonneg hstd0 (by positivity)
    · calc (x - lo) / (hi - lo) * (d : ℚ) ≤ 1 * (d : ℚ) :=
        mul_le_mul_of_nonneg_right hstd1 (by positivity)
      _ = (d : ℚ) := one_mul _

theorem scale_length {pos : List Point} {d : ℕ × ℕ} {s : List (NQ × NQ)}
    (h : scale_coordinates pos d = some s) : s.length = pos.length := by
  cases pos with
  | nil => cases h
  | cons c cs =>
    obtain rfl : _ = s := by simpa [scale_coordinates] using h
    simp

theorem scale_mem_bound {pos : List Point} {d : ℕ × ℕ} {s : List (NQ × NQ)}
    (h : scale_coordinates pos d = some s) :
    ∀ sc ∈ s, (∀ a, sc.1 = some a → 0 ≤ a ∧ a ≤ (d.1 : ℚ)) ∧
      (∀ b, sc.2 = some b → 0 ≤ b ∧ b ≤ (d.2 : ℚ)) := by
  cases pos with
  | nil => cases h
  | cons c cs =>
    obtain rfl : _ = s := by simpa [scale_coordinates] using h
    intro sc hsc
    have hex : ∃ p ∈ c :: cs,
        sc = (scaleVal p.1 ((cs.map Prod.fst).foldl min c.1)
                ((cs.map Prod.fst).foldl max c.1) d.1,
              scaleVal p.2 ((cs.map Prod.snd).foldl min c.2)
                ((cs.map Prod.snd).foldl max c.2) d.2) := by
      rcases List.mem_cons.mp hsc with h' | h'
      · exact ⟨c, List.mem_cons_self .., h'⟩
      · obtain ⟨p, hp, he⟩ := List.mem_map.mp h'
        exact ⟨p, List.mem_cons_of_mem _ hp, he.symm⟩
    obtain ⟨p, hp, rfl⟩ := hex
    constructor
    · intro a ha
      refine scaleVal_bound ?_ ?_ ha
      · rcases List.mem_cons.mp hp with rfl | hp'
        · exact foldl_min_le_init _ _
        · exact foldl_min_le_mem _ (List.mem_map_of_mem Prod.fst hp')
      · rcases List.mem_cons.mp hp with rfl | hp'
        · exact le_foldl_max_init _ _
        · exact le_foldl_max_mem _ (List.mem_map_of_mem Prod.fst hp')
    · intro b hb
      refine scaleVal_bound ?_ ?_ hb
      · rcases List.mem_cons.mp hp with rfl | hp'
        · exact foldl_min_le_init _ _
        · exact foldl_min_le_mem _ (List.mem_map_of_mem Prod.snd hp')
      · rcases List.mem_cons.mp hp with rfl | hp'
        · exact le_foldl_max_init _ _
        · exact le_foldl_max_mem _ (List.mem_map_of_mem Prod.snd hp')

theorem clampBin_bound {z : ℤ} {d : ℕ} (h0 : 0 ≤ z) (h1 : z ≤ (d : ℤ)) (hd : 0 < d) :
    0 ≤ clampBin z d ∧ clampBin z d < (d : ℤ) := by
  unfold clampBin
  split
  · constructor
    · have : (1 : ℤ) ≤ (d : ℤ) := by exact_mod_cast hd
      omega
    · omega
  · next hne => exact ⟨h0, lt_of_le_of_ne h1 hne⟩

theorem coordinate_binning_bounds {pos : List Point} {px : ℕ × ℕ} {coords : List (ℤ × ℤ)}
    (hH : 0 < px.1) (hW : 0 < px.2) (h : coordinate_binning pos px = some coords) :
    ∀ rc ∈ coords, 0 ≤ rc.1 ∧ rc.1 < (px.1 : ℤ) ∧ 0 ≤ rc.2 ∧ rc.2 < (px.2 : ℤ) := by
  unfold coordinate_binning at h
  obtain ⟨scaled, hsc, hmap⟩ := Option.bind_eq_some.mp h
  intro rc hrc
  obtain ⟨sc, hscm, hg⟩ := mapOpt_mem hmap rc hrc
  obtain ⟨a, ha, hg2⟩ := Option.bind_eq_some.mp hg
  obtain ⟨b, hb, hrc'⟩ := Option.map_eq_some'.mp hg2
  obtain ⟨hba, hbb⟩ := scale_mem_bound hsc sc hscm
  obtain ⟨ha0, ha1⟩ := hba a ha
  obtain ⟨hb0, hb1⟩ := hbb b hb
  have hfa0 : (0 : ℤ) ≤ Int.floor a := Int.le_floor.mpr (by exact_mod_cast ha0)
  have hfa1 : Int.floor a ≤ (px.1 : ℤ) := by
    have := Int.floor_le_floor ha1
    rwa [Int.floor_natCast] at this
  have hfb0 : (0 : ℤ) ≤ Int.floor b := Int.le_floor.mpr (by exact_mod_cast hb0)
  have hfb1 : Int.floor b ≤ (px.2 : ℤ) := by
    have := Int.floor_le_floor hb1
    rwa [Int.floor_natCast] at this
  obtain ⟨hc1, hc2⟩ := clampBin_bound hfa0 hfa1 hH
  obtain ⟨hc3, hc4⟩ := clampBin_bound hfb0 hfb1 hW
  rw [← hrc']
  exact ⟨hc1, hc2, hc3, hc4⟩

theorem assignment_postprocessing_bounds {pos : List Point} {n : ℕ}
    {sol labels : List ℕ} {coords : List (ℕ × ℕ)} (hn : 0 < n)
    (hsol : ∀ k ∈ sol, k < n * n)
    (h : assignment_postprocessing pos (n, n) sol labels = some coords) :
    ∀ rc ∈ coords, rc.1 < n ∧ rc.2 < n := by
  unfold assignment_postprocessing at h
  intro rc hrc
  obtain ⟨i, _, hf⟩ := mapOpt_mem h rc hrc
  obtain ⟨j, _, hf2⟩ := Option.bind_eq_some.mp hf
  obtain ⟨k, hk, hrc'⟩ := Option.map_eq_some'.mp hf2
  have hkmem : k ∈ sol := List.get?_mem hk
  have hklt : k < n * n := hsol k hkmem
  rw [← hrc']
  exact ⟨(Nat.div_lt_iff_lt_mul hn).mpr hklt, Nat.mod_lt _ hn⟩

theorem foldl_pick_mem (f : List ℕ → ℚ) :
    ∀ (xs : List (List ℕ)) (x : List ℕ),
      xs.foldl (fun best c => if f c < f best then c else best) x ∈ x :: xs := by
  intro xs
  induction xs with
  | nil => intro x; simp
  | cons y xs ih =>
    intro x
    have h := ih (if f y < f x then y else x)
    rcases List.mem_cons.mp h with h' | h'
    · rw [List.foldl_cons, h']
      split
      · exact List.mem_cons_of_mem _ (List.mem_cons_self ..)
      · exact List.mem_cons_self ..
    · exact List.mem_cons_of_mem _ (List.mem_cons_of_mem _ h')

theorem pickMin_mem {f : List ℕ → ℚ} {l : List (List ℕ)} (h : l ≠ []) :
    pickMin f l ∈ l := by
  cases l with
  | nil => exact absurd rfl h
  | cons x xs => exact foldl_pick_mem f xs x

theorem mem_insertionsOf {a : α} :
    ∀ {l p : List α}, p ∈ insertionsOf a l → p.Perm (a :: l) := by
  intro l
  induction l with
  | nil =>
    intro p hp
    simp only [insertionsOf, List.mem_singleton] at hp
    exact hp ▸ List.Perm.refl _
  | cons b l ih =>
    intro p hp
    simp only [insertionsOf, List.mem_cons, List.mem_map] at hp
    rcases hp with rfl | ⟨q, hq, rfl⟩
    · exact List.Perm.refl _
    · exact (List.Perm.cons b (ih hq)).trans (List.Perm.swap a b l)

theorem mem_permsOf : ∀ {l p : List α}, p ∈ permsOf l → p.Perm l := by
  intro l
  induction l with
  | nil =>
    intro p hp
    simp only [permsOf, List.mem_singleton] at hp
    exact hp ▸ List.Perm.refl _
  | cons a l ih =>
    intro p hp
    simp only [permsOf, List.mem_flatMap] at hp
    obtain ⟨q, hq, hpq⟩ := hp
    exact (mem_insertionsOf hpq).trans (List.Perm.cons a (ih hq))

theorem cons_mem_insertionsOf (a : α) (l : List α) : (a :: l) ∈ insertionsOf a l := by
  cases l <;> simp [insertionsOf]

theorem permsOf_ne_nil : ∀ (l : List α), permsOf l ≠ [] := by
  intro l
  induction l with
  | nil => simp [permsOf]
  | cons a l ih =>
    obtain ⟨q, hq⟩ := List.exists_mem_of_ne_nil _ ih
    exact List.ne_nil_of_mem
      (List.mem_flatMap.mpr ⟨q, hq, cons_mem_insertionsOf a q⟩)

theorem lsa_mem_lt {cost : List (List ℚ)} {k : ℕ}
    (h : k ∈ linear_sum_assignment cost) : k < (cost.headD []).length := by
  unfold linear_sum_assignment at h
  have hne : ((permsOf (List.range (cost.headD []).length)).map
      fun p => p.take cost.length) ≠ [] := by
    simp [permsOf_ne_nil]
  have hmem := pickMin_mem (f := totalCost cost) hne
  obtain ⟨p, hp, hpe⟩ := List.mem_map.mp hmem
  rw [← hpe] at h
  have hkp : k ∈ p := (List.take_sublist _ _).subset h
  have : k ∈ List.range (cost.headD []).length := (mem_permsOf hp).subset hkp
  exact List.mem_range.mp this

theorem lsa_nodup (cost : List (List ℚ)) : (linear_sum_assignment cost).Nodup := by
  unfold linear_sum_assignment
  have hne : ((permsOf (List.range (cost.headD []).length)).map
      fun p => p.take cost.length) ≠ [] := by
    simp [permsOf_ne_nil]
  have hmem := pickMin_mem (f := totalCost cost) hne
  obtain ⟨p, hp, hpe⟩ := List.mem_map.mp hmem
  rw [← hpe]
  have hpn : p.Nodup := (mem_permsOf hp).nodup_iff.mpr (List.nodup_range _)
  exact List.Nodup.sublist (List.take_sublist _ _) hpn

theorem foldSet_length {H : ℕ} :
    ∀ {ws : List (ℕ × ℕ)} {arr arr' : List (Option Point)},
      foldSet H ws arr = some arr' → arr'.length = arr.length := by
  intro ws
  induction ws with
  | nil => intro arr arr' h; cases h; rfl
  | cons w ws ih =>
    intro arr arr' h
    simp only [foldSet] at h
    obtain ⟨arr2, hset, hrest⟩ := Option.bind_eq_some.mp h
    unfold setSlot at hset
    split at hset
    · cases hset
      rw [ih hrest, List.length_set]
    · cases hset

theorem centroids_length {px : ℕ × ℕ} {arr : List (Option Point)}
    (h : calculate_pixel_centroids px = some arr) : arr.length = px.1 * px.2 := by
  unfold calculate_pixel_centroids at h
  obtain ⟨arr0, hfold, hmap⟩ := Option.map_eq_some'.mp h
  rw [← hmap, List.length_map, foldSet_length hfold, List.length_replicate]

theorem cdistSq_row_length {xs : List (NQ × NQ)} {cs : List (Option Point)}
    {d : List (List ℚ)} (h : cdistSq xs cs = some d) :
    ∀ r ∈ d, r.length = cs.length := by
  intro r hr
  obtain ⟨x, _, hx⟩ := mapOpt_mem h r hr
  obtain ⟨a, _, hx2⟩ := Option.bind_eq_some.mp hx
  obtain ⟨b, _, hx3⟩ := Option.bind_eq_some.mp hx2
  exact mapOpt_length hx3

theorem coordinate_optimal_assignment_bounds {cl : ClusterFn} {pos : List Point}
    {n : ℕ} {coords : List (ℕ × ℕ)} (hn : 0 < n) (hlen : pos.length ≤ n * n)
    (h : coordinate_optimal_assignment cl pos (n, n) = some coords) :
    ∀ rc ∈ coords, rc.1 < n ∧ rc.2 < n := by
  unfold coordinate_optimal_assignment at h
  obtain ⟨dl, hpre, hpost⟩ := Option.bind_eq_some.mp h
  unfold assignment_preprocessing at hpre
  obtain ⟨scaled, hsc, hpre2⟩ := Option.bind_eq_some.mp hpre
  obtain ⟨cents, hcent, hpre3⟩ := Option.bind_eq_some.mp hpre2
  have hslen : scaled.length = pos.length := scale_length hsc
  rw [if_neg (by dsimp only; omega)] at hpre3
  obtain ⟨dist, hdist, rfl⟩ := Option.map_eq_some'.mp hpre3
  refine assignment_postprocessing_bounds hn ?_ hpost
  intro k hk
  have hklt : k < (dist.headD []).length := lsa_mem_lt hk
  cases hd : dist with
  | nil => rw [hd] at hklt; simp at hklt
  | cons row rest =>
    have hrow : row.length = cents.length :=
      cdistSq_row_length hdist row (by rw [hd]; exact List.mem_cons_self ..)
    have hcl : cents.length = n * n := by
      have := centroids_length hcent
      simpa using this
    rw [hd] at hklt
    simp only [List.headD_cons] at hklt
    omega

/-! ## Claim theorems -/

/-- C3: the coordinate scaler does NOT guard the zero-range edge case.  On
the point set `[(0,0), (0,1)]` the first axis has zero range, and
`scale_coordinates` computes `(x - min)/(max - min) = 0/0`, i.e. NaN
(modelled `none`), on that axis for every point — not the well-defined
all-zero offset the claim requires. -/
theorem c3_zero_range_nan :
    scale_coordinates [(0, 0), (0, 1)] (2, 2) = some [(none, some 0), (none, some 2)] := by
  decide

/-- C1 (counterexample): on the non-square grid `(H, W) = (1, 2)`,
`calculate_pixel_centroids` places the centroid `(0.5, 1.5)` of pixel
`(i, j) = (0, 1)` at linear index `k = i*H + j = 1`, but
`assignment_postprocessing` decodes index `1` as `(k // H, k % H) = (1, 0)`,
not back to `(0, 1)`: enumeration and decoding are not mutually consistent
on every grid. -/
theorem c1_counterexample :
    centroidAt (1, 2) 1 = some (some (1/2, 3/2)) ∧
    assignment_postprocessing [(0, 0)] (1, 2) [1] [0] = some [(1, 0)] ∧
    ((1, 0) : ℕ × ℕ) ≠ (0, 1) := by
  refine ⟨by decide, by decide, by decide⟩

/-- C2 (counterexample): on the non-square grid `(1, 2)` with two features,
the exact-assignment pipeline produces the mapping `[(0,0), (1,0)]`, whose
second entry has `row = 1`, violating `row < height = 1`.  (The solver here
is forced to use both pixel columns; index `1` decodes to row `1 // 1 = 1`.) -/
theorem c2_counterexample :
    coordinate_optimal_assignment (fun _ _ _ => none) [(0, 0), (1, 1)] (1, 2)
      = some [(0, 0), (1, 0)] ∧ ¬ ((1 : ℕ) < 1) := by
  refine ⟨by decide, by decide⟩

/-- C7 (counterexample): a fitted mapping with 2 features (grid `(1, 2)`)
and an input whose rows have 3 ≠ 2 feature columns: `transform` does not
fail — it silently returns an image built from the first two features. -/
theorem c7_counterexample :
    (transform [(0, 0), (0, 1)] (1, 2) [[1, 2, 3]] "scalar" 0).toOption
      = some (.scalar [[[1, 2]]]) ∧ (3 : ℕ) ≠ 2 := by
  refine ⟨by decide, by decide⟩

/-- C10: assigning to the `pixels` property of a transformer that has never
been fitted always raises: `__init__` leaves `_xrot = np.empty(0)` and sets
`_coords`, so the setter's `hasattr(self, '_coords')` test passes and
`_calculate_coords` runs on the empty position array, where
`scale_coordinates` raises `ValueError` — under each of the three
discretization strategies.  A single integer `n` is first expanded to the
square grid `(n, n)` in either state. -/
theorem c10_unfit_pixels_setter_raises :
    ∀ (p0 p : PixelsParam) (cl : ClusterFn) (ags : SolverFn),
      set_pixels dm_bin (init_state p0) p = .error "ValueError" ∧
      set_pixels (dm_lsa cl) (init_state p0) p = .error "ValueError" ∧
      set_pixels (dm_ags cl ags) (init_state p0) p = .error "ValueError" ∧
      ∀ n : ℕ, parse_pixels (.int n) = (n, n) := by
  intro p0 p cl ags
  exact ⟨rfl, rfl, rfl, fun n => rfl⟩

/-- C6: a successful assignment to the `pixels` property leaves the
projector call counter and the cached oriented positions `_xrot` unchanged,
stores the parsed grid, and recomputes the mapping from the cached `_xrot`
alone; `fit` is the only operation that invokes the projector
(`fit_transform`), incrementing the call counter. -/
theorem c6_set_pixels_frame :
    ∀ (dm : DiscretizationFn) (st : ITState) (p : PixelsParam) (st' : ITState),
      set_pixels dm st p = .ok st' →
      st'.fe_calls = st.fe_calls ∧ st'.xrot = st.xrot ∧
      st'.pixels = parse_pixels p ∧
      dm st.xrot (parse_pixels p) = some st'.coords ∧
      ∀ (fe : List (List ℚ) → List Point) (orient : List Point → List Point)
        (X : List (List ℚ)) (st'' : ITState),
        fit fe orient dm st X = .ok st'' → st''.fe_calls = st.fe_calls + 1 := by
  intro dm st p st' hset
  have hfit : ∀ (fe : List (List ℚ) → List Point) (orient : List Point → List Point)
      (X : List (List ℚ)) (st'' : ITState),
      fit fe orient dm st X = .ok st'' → st''.fe_calls = st.fe_calls + 1 := by
    intro fe orient X st'' hf
    unfold fit at hf
    split at hf
    · cases hf; rfl
    · cases hf
  unfold set_pixels at hset
  split at hset
  · next c hdm => cases hset; exact ⟨rfl, rfl, rfl, hdm, hfit⟩
  · cases hset

/-- C6 (witness): a concrete fitted state, resized from `(2, 2)` to
`(3, 3)` under binning. -/
theorem c6_set_pixels_frame_witness :
    (1 : ℕ) = 1 ∧ ([(0, 0), (1, 1)] : List Point) = [(0, 0), (1, 1)] ∧
    ((3, 3) : ℕ × ℕ) = parse_pixels (.pair (3, 3)) ∧
    dm_bin [(0, 0), (1, 1)] (parse_pixels (.pair (3, 3))) = some [(0, 0), (2, 2)] ∧
    ∀ (fe : List (List ℚ) → List Point) (orient : List Point → List Point)
      (X : List (List ℚ)) (st'' : ITState),
      fit fe orient dm_bin ⟨1, [(0, 0), (1, 1)], (2, 2), []⟩ X = .ok st'' →
      st''.fe_calls = 1 + 1 :=
  c6_set_pixels_frame dm_bin ⟨1, [(0, 0), (1, 1)], (2, 2), []⟩ (.pair (3, 3))
    ⟨1, [(0, 0), (1, 1)], (3, 3), [(0, 0), (2, 2)]⟩ (by decide)

/-- C8: each unknown enumerated configuration value fails at the call that
receives it, with a message naming the offending value (the dictionary
lookup in `_parse_discretization` raises `KeyError(method)`; `transform`
raises `ValueError` naming the encoding; `prediction_reduction` raises
`ValueError` naming the reduction mode); no silent default is taken. -/
theorem c8_unknown_enum_errors :
    ∀ (m fmt red : String) (coords : List (ℕ × ℕ)) (px : ℕ × ℕ) (X : List (List ℚ))
      (ev : ℚ) (M : List (List (List ℚ))) (y : List ℚ) (idx : List ℕ),
      (m ∉ ["bin", "assignment", "lsa", "ags"] →
        parse_discretization m = .error ("KeyError: '" ++ m ++ "'")) ∧
      (fmt ∉ ["rgb", "scalar", "pytorch"] →
        transform_scalar coords px X ev = .ok M →
        transform coords px X fmt ev
          = .error ("'" ++ fmt ++ "' not accepted for img_format")) ∧
      (red ∉ ["mean", "sum"] →
        prediction_reduction y idx red
          = .error ("reduction method '" ++ red ++ "' not valid")) := by
  intro m fmt red coords px X ev M y idx
  refine ⟨?_, ?_, ?_⟩
  · intro hm
    simp only [List.mem_cons, List.not_mem_nil, or_false, not_or] at hm
    obtain ⟨h1, h2, h3, h4⟩ := hm
    simp [parse_discretization, DISCRETIZATION_OPTIONS, List.lookup,
      beq_eq_false_iff_ne.mpr h1, beq_eq_false_iff_ne.mpr h2,
      beq_eq_false_iff_ne.mpr h3, beq_eq_false_iff_ne.mpr h4]
  · intro hf hts
    simp only [List.mem_cons, List.not_mem_nil, or_false, not_or] at hf
    obtain ⟨h1, h2, h3⟩ := hf
    simp [transform, hts, Except.bind, h1, h2, h3]
  · intro hr
    simp only [List.mem_cons, List.not_mem_nil, or_false, not_or] at hr
    obtain ⟨h1, h2⟩ := hr
    simp [prediction_reduction, h1, h2]

theorem np_unique_sorted (l : List ℕ) : (np_unique l).Sorted (· < ·) := by
  have hs : (l.insertionSort (· ≤ ·)).Sorted (· ≤ ·) := List.sorted_insertionSort _ l
  have hd : (np_unique l).Sorted (· ≤ ·) :=
    List.Pairwise.sublist (List.dedup_sublist _) hs
  exact hd.lt_of_le (List.nodup_dedup _)

theorem np_unique_mem (l : List ℕ) (k : ℕ) : k ∈ np_unique l ↔ k ∈ l :=
  List.mem_dedup.trans (List.perm_insertionSort _ l).mem_iff

/-- C9: `prediction_reduction` aggregates per-representation scores to one
score per distinct sample index, in strictly ascending index order, by mean
(or sum) over the scores carrying that index; concretely
`prediction_reduction([1,2,3,4], [0,0,1,1], 'mean') = [1.5, 3.5]`. -/
theorem c9_prediction_reduction :
    ∀ (y : List ℚ) (index : List ℕ),
      (np_unique index).Sorted (· < ·) ∧
      (∀ k, k ∈ np_unique index ↔ k ∈ index) ∧
      prediction_reduction y index "mean"
        = .ok ((np_unique index).map fun k => np_mean (selectBy y index k)) ∧
      prediction_reduction y index "sum"
        = .ok ((np_unique index).map fun k => (selectBy y index k).sum) ∧
      prediction_reduction [1, 2, 3, 4] [0, 0, 1, 1] "mean" = .ok [3/2, 7/2] := by
  intro y index
  refine ⟨np_unique_sorted index, np_unique_mem index, rfl, ?_, by decide⟩
  simp [prediction_reduction]

/-- C2 (amended): the feature→pixel bounds invariant holds for binning on
every positive grid, and for assignment-based discretization on square
grids: (i) every binning entry satisfies `0 ≤ row < H` and `0 ≤ col < W`;
(ii) on a square grid `(n, n)`, any postprocessed assignment whose solver
returned pixel indices `< n*n` stays within bounds (this covers `'lsa'`,
`'assignment'` and `'ags'` at the decode step); (iii) in particular the
whole exact-assignment pipeline stays within bounds on square grids when
the feature count is at most the pixel count.  On non-square grids the
claim fails (`c2_counterexample`): the decode divides by the height for
both coordinates. -/
theorem c2_amended :
    (∀ (pos : List Point) (px : ℕ × ℕ) (coords : List (ℤ × ℤ)),
        0 < px.1 → 0 < px.2 → coordinate_binning pos px = some coords →
        ∀ rc ∈ coords, 0 ≤ rc.1 ∧ rc.1 < (px.1 : ℤ) ∧ 0 ≤ rc.2 ∧ rc.2 < (px.2 : ℤ)) ∧
    (∀ (pos : List Point) (n : ℕ) (sol labels : List ℕ) (coords : List (ℕ × ℕ)),
        0 < n → (∀ k ∈ sol, k < n * n) →
        assignment_postprocessing pos (n, n) sol labels = some coords →
        ∀ rc ∈ coords, rc.1 < n ∧ rc.2 < n) ∧
    (∀ (cl : ClusterFn) (pos : List Point) (n : ℕ) (coords : List (ℕ × ℕ)),
        0 < n → pos.length ≤ n * n →
        coordinate_optimal_assignment cl pos (n, n) = some coords →
        ∀ rc ∈ coords, rc.1 < n ∧ rc.2 < n) :=
  ⟨fun _ _ _ hH hW h => coordinate_binning_bounds hH hW h,
   fun _ _ _ _ _ hn hsol h => assignment_postprocessing_bounds hn hsol h,
   fun _ _ _ _ hn hlen h => coordinate_optimal_assignment_bounds hn hlen h⟩

set_option maxRecDepth 8000 in
/-- C2 (witness): concrete in-bounds instances — binning two points on the
`(3, 3)` grid (entry `(2, 2)`), and the exact assignment of two points on
the `(2, 2)` grid (entry `(1, 1)`). -/
theorem c2_amended_witness :
    ((0 : ℤ) ≤ 2 ∧ (2 : ℤ) < 3 ∧ (0 : ℤ) ≤ 2 ∧ (2 : ℤ) < 3) ∧
    ((1 : ℕ) < 2 ∧ (1 : ℕ) < 2) :=
  ⟨c2_amended.1 [(0, 0), (1, 1)] (3, 3) [(0, 0), (2, 2)]
      (by decide) (by decide) (by decide) (2, 2) (by decide),
   c2_amended.2.2 (fun _ _ _ => none) [(0, 0), (1, 1)] 2 [(0, 0), (1, 1)]
      (by decide) (by decide) (by decide) (1, 1) (by decide)⟩

/-- C4: the exact-assignment pipeline is injective whenever the feature
count is at most the pixel count: no clustering happens, the solver returns
pairwise-distinct pixel indices, and the index decode is injective, so the
`n` features land on `n` pairwise-distinct pixels. -/
theorem c4_exact_assignment_injective :
    ∀ (cl : ClusterFn) (pos : List Point) (px : ℕ × ℕ) (coords : List (ℕ × ℕ)),
      pos.length ≤ px.1 * px.2 →
      coordinate_optimal_assignment cl pos px = some coords →
      coords.length = pos.length ∧ coords.Nodup := by
  intro cl pos px coords hlen h
  unfold coordinate_optimal_assignment at h
  obtain ⟨dl, hpre, hpost⟩ := Option.bind_eq_some.mp h
  unfold assignment_preprocessing at hpre
  obtain ⟨scaled, hsc, hpre2⟩ := Option.bind_eq_some.mp hpre
  obtain ⟨cents, hcent, hpre3⟩ := Option.bind_eq_some.mp hpre2
  have hslen : scaled.length = pos.length := scale_length hsc
  rw [if_neg (by omega)] at hpre3
  obtain ⟨dist, hdist, rfl⟩ := Option.map_eq_some'.mp hpre3
  unfold assignment_postprocessing at hpost
  dsimp only at hpost
  have hclen : coords.length = pos.length := by
    have := mapOpt_length hpost
    simpa using this
  refine ⟨hclen, ?_⟩
  rw [List.nodup_iff_get?_ne_get?]
  intro i j hij hjlen heq
  have hjp : j < pos.length := by omega
  have hip : i < pos.length := by omega
  have hgi := mapOpt_get? hpost i
  have hgj := mapOpt_get? hpost j
  rw [List.get?_range hip, Option.some_bind,
    List.get?_range (show i < scaled.length by omega), Option.some_bind] at hgi
  rw [List.get?_range hjp, Option.some_bind,
    List.get?_range (show j < scaled.length by omega), Option.some_bind] at hgj
  obtain ⟨ki, hki⟩ : ∃ k, (linear_sum_assignment dist).get? i = some k := by
    cases hsi : (linear_sum_assignment dist).get? i with
    | none =>
      rw [hsi, Option.map_none'] at hgi
      have := List.get?_eq_none.mp hgi
      omega
    | some k => exact ⟨k, rfl⟩
  obtain ⟨kj, hkj⟩ : ∃ k, (linear_sum_assignment dist).get? j = some k := by
    cases hsj : (linear_sum_assignment dist).get? j with
    | none =>
      rw [hsj, Option.map_none'] at hgj
      have := List.get?_eq_none.mp hgj
      omega
    | some k => exact ⟨k, rfl⟩
  rw [hgi, hgj, hki, hkj, Option.map_some', Option.map_some'] at heq
  have hpair : (ki / px.1, ki % px.1) = (kj / px.1, kj % px.1) := by
    exact Option.some.injEq .. ▸ heq
  have hk : ki = kj := by
    have h1 : ki / px.1 = kj / px.1 := congrArg Prod.fst hpair
    have h2 : ki % px.1 = kj % px.1 := congrArg Prod.snd hpair
    have e1 := Nat.div_add_mod ki px.1
    rw [h1, h2] at e1
    have e2 := Nat.div_add_mod kj px.1
    omega
  have hjsol : j < (linear_sum_assignment dist).length :=
    (List.get?_eq_some.mp hkj).1
  exact (List.nodup_iff_get?_ne_get?.mp (lsa_nodup dist)) i j hij hjsol
    (by rw [hki, hkj, hk])

set_option maxRecDepth 8000 in
/-- C4 (witness): 2 features on the `(2, 2)` grid land on the two distinct
pixels `(0,0)` and `(1,1)`. -/
theorem c4_exact_assignment_injective_witness :
    ([(0, 0), (1, 1)] : List (ℕ × ℕ)).length
      = ([(0, 0), (1, 1)] : List Point).length ∧
    ([(0, 0), (1, 1)] : List (ℕ × ℕ)).Nodup :=
  c4_exact_assignment_injective (fun _ _ _ => none) [(0, 0), (1, 1)] (2, 2)
    [(0, 0), (1, 1)] (by decide) (by decide)

theorem exc_ok_bind {α β : Type} {a : α} {f : α → Except String β} :
    (Except.ok a).bind f = f a := rfl

theorem mapOpt_congr {f g : α → Option β} :
    ∀ {l : List α}, (∀ a ∈ l, f a = g a) → mapOpt f l = mapOpt g l := by
  intro l
  induction l with
  | nil => intro _; rfl
  | cons a l ih =>
    intro h
    simp only [mapOpt, h a (List.mem_cons_self ..),
      ih fun x hx => h x (List.mem_cons_of_mem _ hx)]

theorem featuresAt_mem_lt {coords : List (ℕ × ℕ)} {rc : ℕ × ℕ} {i : ℕ}
    (h : i ∈ featuresAt coords rc) : i < coords.length := by
  unfold featuresAt at h
  exact List.mem_range.mp (List.mem_of_mem_filter h)

theorem pixel_value_take {coords : List (ℕ × ℕ)} {xs : List ℚ} {rc : ℕ × ℕ} {ev : ℚ} :
    pixel_value coords (xs.take coords.length) rc ev = pixel_value coords xs rc ev := by
  have he : mapOpt (fun i => (xs.take coords.length).get? i) (featuresAt coords rc)
      = mapOpt (fun i => xs.get? i) (featuresAt coords rc) :=
    mapOpt_congr fun i hi => by
      have hlt := featuresAt_mem_lt hi
      rw [List.get?_eq_getElem?, List.get?_eq_getElem?, List.getElem?_take_of_lt hlt]
  unfold pixel_value
  rw [he]

/-- C7 (amended): `transform` performs no feature-count validation: its
output depends only on the feature columns referenced by the stored mapping
(all indices below the fit-time feature count), so any surplus columns of
the input are silently ignored — transforming `X` equals transforming `X`
with every row truncated to the fit-time feature count, for every encoding
name.  (With too few columns the gather fails with numpy's `IndexError`,
not a shape-mismatch message.) -/
theorem c7_amended :
    ∀ (coords : List (ℕ × ℕ)) (px : ℕ × ℕ) (X : List (List ℚ)) (fmt : String) (ev : ℚ),
      transform coords px X fmt ev
        = transform coords px (X.map fun xs => xs.take coords.length) fmt ev := by
  intro coords px X fmt ev
  unfold transform
  have hts : transform_scalar coords px (X.map fun xs => xs.take coords.length) ev
      = transform_scalar coords px X ev := by
    unfold transform_scalar
    rw [mapExc_map_comp]
    exact mapExc_congr fun xs _ =>
      mapExc_congr fun r _ => mapExc_congr fun c _ => pixel_value_take
  rw [hts]

theorem filter_range_single {n i : ℕ} (p : ℕ → Bool) (hi : i < n)
    (hp : ∀ j, j < n → (p j = true ↔ j = i)) :
    (List.range n).filter p = [i] := by
  induction n with
  | zero => omega
  | succ n ih =>
    rw [List.range_succ, List.filter_append]
    by_cases hin : i = n
    · have h1 : (List.range n).filter p = [] :=
        List.filter_eq_nil_iff.mpr fun j hj hpj => by
          have hjn := List.mem_range.mp hj
          have := (hp j (by omega)).mp hpj
          omega
      have h2 : p n = true := (hp n (by omega)).mpr hin.symm
      simp [h1, h2, hin]
    · have h1 := ih (by omega) fun j hj => hp j (by omega)
      have h2 : p n = false := by
        cases hb : p n with
        | false => rfl
        | true =>
          have := (hp n (by omega)).mp hb
          omega
      simp [h1, h2]

theorem featuresAt_self {coords : List (ℕ × ℕ)} (hnd : coords.Nodup) {k : ℕ}
    (hk : k < coords.length) :
    featuresAt coords (coords.getD k (0, 0)) = [k] := by
  unfold featuresAt
  refine filter_range_single _ hk fun j hj => ?_
  simp only [decide_eq_true_eq]
  rw [List.getD_eq_getElem _ _ hj, List.getD_eq_getElem _ _ hk]
  exact hnd.getElem_inj_iff

theorem pixel_value_ok {coords : List (ℕ × ℕ)} {xs : List ℚ} {rc : ℕ × ℕ} {ev : ℚ}
    (hlen : ∀ i ∈ featuresAt coords rc, i < xs.length) :
    pixel_value coords xs rc ev = .ok (pvPure coords xs rc ev) := by
  have hmap : mapOpt (fun i => xs.get? i) (featuresAt coords rc)
      = some ((featuresAt coords rc).map fun i => xs.getD i 0) :=
    mapOpt_eq_some_map fun i hi => by
      have hilt := hlen i hi
      rw [List.get?_eq_getElem?, List.getElem?_eq_getElem hilt,
        List.getD_eq_getElem _ _ hilt]
  unfold pixel_value pvPure
  cases h : featuresAt coords rc with
  | nil => simp [h]
  | cons i is =>
    rw [h] at hmap
    rw [if_neg (by simp), hmap]
    simp [List.length_map]

theorem transform_scalar_ok {coords : List (ℕ × ℕ)} {px : ℕ × ℕ}
    {X : List (List ℚ)} {ev : ℚ} (hX : ∀ xs ∈ X, coords.length ≤ xs.length) :
    transform_scalar coords px X ev = .ok (X.map fun xs =>
      (List.range px.1).map fun r =>
        (List.range px.2).map fun c => pvPure coords xs (r, c) ev) := by
  unfold transform_scalar
  refine mapExc_eq_ok_map fun xs hxs => ?_
  refine mapExc_eq_ok_map fun r _ => ?_
  refine mapExc_eq_ok_map fun c _ => ?_
  exact pixel_value_ok fun i hi =>
    lt_of_lt_of_le (featuresAt_mem_lt hi) (hX xs hxs)

theorem pvPure_self {coords : List (ℕ × ℕ)} (hnd : coords.Nodup) {xs : List ℚ} {k : ℕ}
    (hk : k < coords.length) (ev : ℚ) :
    pvPure coords xs (coords.getD k (0, 0)) ev = xs.getD k 0 := by
  unfold pvPure
  rw [featuresAt_self hnd hk]
  simp

/-- C5: the scalar-encoding round trip.  For a stored mapping with no pixel
collisions (injective, in bounds) and an input with the fit-time feature
count, `inverse_transform(transform(X, img_format='scalar'))` returns `X`
exactly: each pixel holds the mean of the single feature mapped there, and
the gather reads the features back in original order, one row per sample. -/
theorem c5_round_trip :
    ∀ (coords : List (ℕ × ℕ)) (px : ℕ × ℕ) (X : List (List ℚ)),
      coords.Nodup →
      (∀ rc ∈ coords, rc.1 < px.1 ∧ rc.2 < px.2) →
      (∀ xs ∈ X, xs.length = coords.length) →
      transform_then_inverse coords px X = .ok X := by
  intro coords px X hnd hbnd hX
  unfold transform_then_inverse transform
  rw [transform_scalar_ok fun xs hxs => (hX xs hxs).ge]
  rw [exc_ok_bind]
  rw [if_neg (by decide), if_pos rfl]
  rw [exc_ok_bind]
  show inverse_transform_batch coords px (X.map fun xs =>
    (List.range px.1).map fun r =>
      (List.range px.2).map fun c => pvPure coords xs (r, c) 0) = .ok X
  unfold inverse_transform_batch
  rw [if_pos ?hall]
  case hall =>
    refine List.all_eq_true.mpr fun im him => ?_
    obtain ⟨xs, _, rfl⟩ := List.mem_map.mp him
    rw [Bool.and_eq_true]
    refine ⟨by simp, ?_⟩
    refine List.all_eq_true.mpr fun row hrow => ?_
    obtain ⟨r, _, rfl⟩ := List.mem_map.mp hrow
    simp
  congr 1
  rw [List.map_map]
  refine (List.map_congr_left fun xs hxs => ?_).trans (List.map_id X)
  have hxlen : xs.length = coords.length := hX xs hxs
  simp only [Function.comp_apply, id_eq]
  refine List.ext_getElem? fun k => ?_
  rw [List.getElem?_map]
  by_cases hkc : k < coords.length
  · rw [List.getElem?_eq_getElem hkc, Option.map_some',
      List.getElem?_eq_getElem (show k < xs.length by omega)]
    congr 1
    obtain ⟨hb1, hb2⟩ := hbnd coords[k] (List.getElem_mem hkc)
    simp only [List.getD_eq_getElem?_getD, List.getElem?_map,
      List.getElem?_range hb1, List.getElem?_range hb2,
      Option.map_some', Option.getD_some]
    rw [Prod.mk.eta]
    rw [show coords[k] = coords.getD k (0, 0) from (List.getD_eq_getElem _ _ hkc).symm]
    rw [pvPure_self hnd hkc]
    exact List.getD_eq_getElem _ _ (show k < xs.length by omega)
  · rw [List.getElem?_eq_none (by omega), List.getElem?_eq_none (by omega),
      Option.map_none']

/-- C5 (witness): two features on distinct pixels of the `(2, 2)` grid; the
sample `[3, 4]` survives the scalar round trip. -/
theorem c5_round_trip_witness :
    transform_then_inverse [(0, 0), (1, 1)] (2, 2) [[3, 4]] = .ok [[3, 4]] :=
  c5_round_trip [(0, 0), (1, 1)] (2, 2) [[3, 4]] (by decide) (by decide) (by decide)

theorem foldSet_append {H : ℕ} (a b : List (ℕ × ℕ)) (arr : List (Option Point)) :
    foldSet H (a ++ b) arr = (foldSet H a arr).bind (foldSet H b) := by
  induction a generalizing arr with
  | nil => simp [foldSet]
  | cons w ws ih =>
    simp only [List.cons_append, foldSet]
    cases setSlot arr (w.1 * H + w.2) ((w.1 : ℚ), (w.2 : ℚ)) with
    | none => simp
    | some arr2 => simp [ih]

theorem foldSet_get_ne {H k : ℕ} :
    ∀ {ws : List (ℕ × ℕ)} {arr arr' : List (Option Point)},
      (∀ w ∈ ws, w.1 * H + w.2 ≠ k) → foldSet H ws arr = some arr' →
      arr'.get? k = arr.get? k := by
  intro ws
  induction ws with
  | nil => intro arr arr' _ h; cases h; rfl
  | cons w ws ih =>
    intro arr arr' hne h
    simp only [foldSet] at h
    obtain ⟨arr2, hset, hrest⟩ := Option.bind_eq_some.mp h
    rw [ih (fun x hx => hne x (List.mem_cons_of_mem _ hx)) hrest]
    unfold setSlot at hset
    split at hset
    · cases hset
      exact List.get?_set_ne _ _ (hne w (List.mem_cons_self ..))
    · cases hset

theorem foldSet_total {H : ℕ} :
    ∀ {ws : List (ℕ × ℕ)} {arr : List (Option Point)},
      (∀ w ∈ ws, w.1 * H + w.2 < arr.length) →
      ∃ arr', foldSet H ws arr = some arr' := by
  intro ws
  induction ws with
  | nil => intro arr _; exact ⟨arr, rfl⟩
  | cons w ws ih =>
    intro arr hlt
    have hw := hlt w (List.mem_cons_self ..)
    simp only [foldSet, setSlot, if_pos hw, Option.some_bind]
    exact ih fun x hx => by
      rw [List.length_set]
      exact hlt x (List.mem_cons_of_mem _ hx)

theorem setSlot_get {arr : List (Option Point)} {k : ℕ} {v : Point} {arr2 : List (Option Point)}
    (h : setSlot arr k v = some arr2) : arr2.get? k = some (some v) := by
  unfold setSlot at h
  split at h
  · next hlt => cases h; exact List.get?_set_eq_of_lt _ hlt
  · cases h

theorem centroid_keys_nodup (n : ℕ) :
    ((centroid_pairs (n, n)).map fun ij => ij.1 * n + ij.2).Nodup := by
  unfold centroid_pairs
  rw [List.map_flatMap]
  refine List.nodup_flatMap.mpr ⟨fun i _ => ?_, ?_⟩
  · rw [List.map_map]
    refine List.Nodup.map (fun a b hab => ?_) (List.nodup_range n)
    simpa using hab
  · refine (List.pairwise_lt_range n).imp fun {i i'} hii' => ?_
    intro a ha ha'
    simp only [List.map_map, List.mem_map, Function.comp_apply, List.mem_range] at ha ha'
    obtain ⟨j, hj, rfl⟩ := ha
    obtain ⟨j', hj', he⟩ := ha'
    have h1 : (i + 1) * n = i * n + n := by ring
    have h2 : (i + 1) * n ≤ i' * n := Nat.mul_le_mul_right _ (by omega)
    omega

theorem centroid_keys_lt {n : ℕ} :
    ∀ w ∈ centroid_pairs (n, n), w.1 * n + w.2 < n * n := by
  intro w hw
  unfold centroid_pairs at hw
  simp only [List.mem_flatMap, List.mem_map, List.mem_range] at hw
  obtain ⟨i, hi, j, hj, rfl⟩ := hw
  have h1 : (i + 1) * n = i * n + n := by ring
  have h2 : (i + 1) * n ≤ n * n := Nat.mul_le_mul_right _ (by omega)
  simp only []
  omega

theorem centroids_square_slot {n i j : ℕ} (hi : i < n) (hj : j < n) :
    centroidAt (n, n) (i * n + j) = some (some ((i : ℚ) + 1/2, (j : ℚ) + 1/2)) := by
  have hmem : (i, j) ∈ centroid_pairs (n, n) := by
    unfold centroid_pairs
    simp only [List.mem_flatMap, List.mem_map, List.mem_range]
    exact ⟨i, hi, j, hj, rfl⟩
  obtain ⟨s, t, hst⟩ := List.append_of_mem hmem
  have hknd := centroid_keys_nodup n
  rw [hst, List.map_append, List.map_cons] at hknd
  have hnotin : i * n + j ∉ t.map fun ij => ij.1 * n + ij.2 :=
    (List.nodup_cons.mp (List.nodup_append.mp hknd).2.1).1
  have htotal : ∀ w ∈ centroid_pairs (n, n),
      w.1 * n + w.2 < (List.replicate (n * n) (none : Option Point)).length := by
    intro w hw
    rw [List.length_replicate]
    exact centroid_keys_lt w hw
  obtain ⟨arr0, hfold⟩ := foldSet_total htotal
  have hfold' := hfold
  rw [hst, foldSet_append] at hfold'
  obtain ⟨m1, hs1, hs2⟩ := Option.bind_eq_some.mp hfold'
  simp only [foldSet] at hs2
  obtain ⟨m2, hset, hrest⟩ := Option.bind_eq_some.mp hs2
  have hget : arr0.get? (i * n + j) = some (some ((i : ℚ), (j : ℚ))) := by
    rw [foldSet_get_ne ?hne hrest, setSlot_get hset]
    case hne =>
      intro w hw he
      exact hnotin (he ▸ List.mem_map_of_mem (fun ij => ij.1 * n + ij.2) hw)
  unfold centroidAt calculate_pixel_centroids
  rw [hfold]
  simp only [Option.map_some', Option.some_bind]
  rw [List.get?_eq_getElem?, List.getElem?_map]
  rw [List.get?_eq_getElem?] at hget
  rw [hget]
  rfl

theorem decode_single {n i j : ℕ} (hdiv : (i * n + j) / n = i)
    (hmod : (i * n + j) % n = j) :
    assignment_postprocessing [(0, 0)] (n, n) [i * n + j] [0] = some [(i, j)] := by
  unfold assignment_postprocessing
  simp [mapOpt, hdiv, hmod]

/-- C1 (amended): on square grids `(n, n)` the pixel-centroid enumeration
and the assignment-index decode are mutually consistent: the centroid of
pixel `(i, j)` is placed at `(i+0.5, j+0.5)` at linear index `k = i*n + j`,
`assignment_postprocessing` decodes that index back to `(row, col) = (i, j)`,
and the enumeration index is injective, so the `n*n` pixels occupy distinct
linear indices.  On non-square grids the claim fails
(`c1_counterexample`): the enumeration stride and the decode divisor are
both the height, so index `1` of grid `(1, 2)` decodes to `(1, 0)` instead
of `(0, 1)`. -/
theorem c1_amended :
    ∀ (n i j : ℕ), i < n → j < n →
      centroidAt (n, n) (i * n + j) = some (some ((i : ℚ) + 1/2, (j : ℚ) + 1/2)) ∧
      assignment_postprocessing [(0, 0)] (n, n) [i * n + j] [0] = some [(i, j)] ∧
      ∀ i' j', i' < n → j' < n → i' * n + j' = i * n + j → i' = i ∧ j' = j := by
  intro n i j hi hj
  have hn : 0 < n := by omega
  have hdiv : ∀ a b : ℕ, b < n → (a * n + b) / n = a := fun a b hb => by
    rw [mul_comm, Nat.mul_add_div hn, Nat.div_eq_of_lt hb, add_zero]
  have hmod : ∀ a b : ℕ, b < n → (a * n + b) % n = b := fun a b hb => by
    rw [mul_comm, Nat.mul_add_mod, Nat.mod_eq_of_lt hb]
  refine ⟨centroids_square_slot hi hj, decode_single (hdiv i j hj) (hmod i j hj), ?_⟩
  intro i' j' hi' hj' he
  have e1 : i' = i := by
    have := hdiv i' j' hj'
    rw [he, hdiv i j hj] at this
    omega
  have e2 : j' = j := by
    have := hmod i' j' hj'
    rw [he, hmod i j hj] at this
    omega
  exact ⟨e1, e2⟩

/-- C1 (witness): pixel `(0, 1)` of the square grid `(2, 2)` sits at linear
index `1` with centroid `(0.5, 1.5)` and decodes back to `(0, 1)`. -/
theorem c1_amended_witness :
    centroidAt (2, 2) (0 * 2 + 1) = some (some ((0 : ℚ) + 1/2, (1 : ℚ) + 1/2)) ∧
    assignment_postprocessing [(0, 0)] (2, 2) [0 * 2 + 1] [0] = some [(0, 1)] :=
  ⟨(c1_amended 2 0 1 (by decide) (by decide)).1,
   (c1_amended 2 0 1 (by decide) (by decide)).2.1⟩

/-- C8 (witness): the value `'bogus'` for each of the three enumerations. -/
theorem c8_unknown_enum_errors_witness :
    parse_discretization "bogus" = .error ("KeyError: '" ++ "bogus" ++ "'") ∧
    transform [] (1, 1) [] "bogus" 0
      = .error ("'" ++ "bogus" ++ "' not accepted for img_format") ∧
    prediction_reduction [] [] "bogus"
      = .error ("reduction method '" ++ "bogus" ++ "' not valid") :=
  ⟨(c8_unknown_enum_errors "bogus" "bogus" "bogus" [] (1, 1) [] 0 [] [] []).1 (by decide),
   (c8_unknown_enum_errors "bogus" "bogus" "bogus" [] (1, 1) [] 0 [] [] []).2.1 (by decide) rfl,
   (c8_unknown_enum_errors "bogus" "bogus" "bogus" [] (1, 1) [] 0 [] [] []).2.2 (by decide)⟩

end PyDeepInsight
